import Mathlib

/-!
External merge sort (`ExternalMergeSort` in `4.py`): a shallow embedding.

The program sorts a newline-delimited file in two phases:

* `_create_sorted_chunks` reads the input records, buffers up to `chunk_size`
  of them, sorts each full buffer (and a final short buffer) and writes it to
  a temp file `temp_<counter>.txt`, with `counter` starting at 0 and
  incremented after each flush;
* `_merge_chunks` opens all temp files, seeds a binary min-heap with the pair
  `(first line, file index)` of each non-empty temp file, then repeatedly pops
  the least pair, writes its value to the output file, and pushes the next
  line of the popped file if any; afterwards it closes and removes the temp
  files.

Records are the lines of the file with the trailing newline stripped; we model
an input file as the list of its records over a linearly ordered record type
(the program uses Python `str` with its lexicographic order; the claims are
stated at `String`).  Python tuple comparison on `(value, index)` is the
lexicographic order `entryLe`; `heapq.heappop` returns a least element of the
heap, which we model by `popMin` on the heap viewed as a list.

A second, effectful model (`FS`, `sortFileRun`) additionally tracks the temp
files and the destination file and injects a write failure after a chosen
number of successful output writes, to settle the error-handling claims about
temp-file cleanup and partial output.
-/

namespace ExternalMergeSort

variable {α : Type} [LinearOrder α]

/-- Python tuple comparison on heap entries `(value, file index)`:
lexicographic, value first, index as tie-break. -/
def entryLe (a b : α × Nat) : Prop :=
  a.1 < b.1 ∨ (a.1 = b.1 ∧ a.2 ≤ b.2)

instance entryLeDecidable (a b : α × Nat) : Decidable (entryLe a b) := by
  unfold entryLe; infer_instance

theorem entryLe_refl (a : α × Nat) : entryLe a a := Or.inr ⟨rfl, le_refl _⟩

theorem entryLe_trans {a b c : α × Nat} (h₁ : entryLe a b) (h₂ : entryLe b c) :
    entryLe a c := by
  rcases h₁ with h₁ | ⟨h₁, h₁'⟩ <;> rcases h₂ with h₂ | ⟨h₂, h₂'⟩
  · exact Or.inl (lt_trans h₁ h₂)
  · exact Or.inl (h₂ ▸ h₁)
  · exact Or.inl (h₁ ▸ h₂)
  · exact Or.inr ⟨h₁.trans h₂, le_trans h₁' h₂'⟩

theorem entryLe_total (a b : α × Nat) : entryLe a b ∨ entryLe b a := by
  rcases lt_trichotomy a.1 b.1 with h | h | h
  · exact Or.inl (Or.inl h)
  · rcases Nat.le_total a.2 b.2 with h' | h'
    · exact Or.inl (Or.inr ⟨h, h'⟩)
    · exact Or.inr (Or.inr ⟨h.symm, h'⟩)
  · exact Or.inr (Or.inl h)

theorem entryLe_val {a b : α × Nat} (h : entryLe a b) : a.1 ≤ b.1 := by
  rcases h with h | ⟨h, _⟩
  · exact le_of_lt h
  · exact le_of_eq h

/-- Model of `heapq.heappop`: return a least element of the heap together with the
remaining heap.  `none` iff the heap is empty. -/
def popMin : List (α × Nat) → Option ((α × Nat) × List (α × Nat))
  | [] => none
  | e :: rest =>
    match popMin rest with
    | none => some (e, [])
    | some (m, rest') =>
      if entryLe e m then some (e, rest) else some (m, e :: rest')

theorem popMin_eq_none {h : List (α × Nat)} (hp : popMin h = none) : h = [] := by
  cases h with
  | nil => rfl
  | cons e rest =>
    unfold popMin at hp
    rcases hrest : popMin rest with _ | p <;> rw [hrest] at hp
    · exact absurd hp (by simp)
    · rcases p with ⟨m, rest'⟩
      by_cases hle : entryLe e m <;> simp [hle] at hp

theorem popMin_perm {h : List (α × Nat)} {e : α × Nat} {h' : List (α × Nat)}
    (hp : popMin h = some (e, h')) : h.Perm (e :: h') := by
  induction h generalizing e h' with
  | nil => simp [popMin] at hp
  | cons a rest ih =>
    unfold popMin at hp
    rcases hrest : popMin rest with _ | ⟨m, rest'⟩ <;> rw [hrest] at hp
    · have : rest = [] := popMin_eq_none hrest
      subst this
      simp at hp
      simp [hp.1, hp.2]
    · by_cases hle : entryLe a m <;> simp [hle] at hp
      · rw [← hp.1, ← hp.2]
      · rw [← hp.1, ← hp.2]
        exact (List.Perm.cons a (ih hrest)).trans (List.Perm.swap m a rest')

theorem popMin_le {h : List (α × Nat)} {e : α × Nat} {h' : List (α × Nat)}
    (hp : popMin h = some (e, h')) : ∀ x ∈ h, entryLe e x := by
  induction h generalizing e h' with
  | nil => simp [popMin] at hp
  | cons a rest ih =>
    unfold popMin at hp
    rcases hrest : popMin rest with _ | ⟨m, rest'⟩ <;> rw [hrest] at hp
    · have : rest = [] := popMin_eq_none hrest
      subst this
      simp at hp
      intro x hx
      simp at hx
      rw [hx, ← hp.1]
      exact entryLe_refl a
    · by_cases hle : entryLe a m <;> simp [hle] at hp
      · intro x hx
        rw [← hp.1]
        rcases List.mem_cons.mp hx with hx | hx
        · rw [hx]; exact entryLe_refl a
        · exact entryLe_trans hle (ih hrest x hx)
      · intro x hx
        rw [← hp.1]
        rcases List.mem_cons.mp hx with hx | hx
        · rw [hx]
          rcases entryLe_total a m with h1 | h1
          · exact absurd h1 hle
          · exact h1
        · exact ih hrest x hx

theorem popMin_length {h : List (α × Nat)} {e : α × Nat} {h' : List (α × Nat)}
    (hp : popMin h = some (e, h')) : h.length = h'.length + 1 := by
  have := (popMin_perm hp).length_eq
  simpa using this

theorem getD_ne_nil_lt_length {β : Type} {l : List (List β)} {i : Nat}
    (h : l.getD i [] ≠ []) : i < l.length := by
  by_contra hi
  push_neg at hi
  rw [List.getD_eq_default] at h
  · exact h rfl
  · exact hi

theorem sum_lengths_set {β : Type} {l : List (List β)} {idx : Nat} {r : β}
    {rest : List β} (hc : l.getD idx [] = r :: rest) :
    ((l.set idx rest).map List.length).sum + 1 = (l.map List.length).sum := by
  induction l generalizing idx with
  | nil => simp [List.getD] at hc
  | cons c l' ih =>
    cases idx with
    | zero =>
      rw [List.getD_cons_zero] at hc
      simp [List.set, hc]
      omega
    | succ n =>
      rw [List.getD_cons_succ] at hc
      have := ih hc
      simp only [List.set_cons_succ, List.map_cons, List.sum_cons]
      omega

/-- One run of the merge loop, structurally recursive on a fuel argument so
that it reduces in the kernel.  Each iteration strictly decreases
`heap.length + (total unread records)`, so that quantity is enough fuel; the
wrapper `mergeLoop` supplies it and `mergeLoop_eq` recovers the loop's
step equation. -/
def mergeLoopFuel : Nat → List (List α) → List (α × Nat) → List α
  | 0, _, _ => []
  | fuel + 1, chunks, heap =>
    match popMin heap with
    | none => []
    | some (e, heap') =>
      match chunks.getD e.2 [] with
      | [] => e.1 :: mergeLoopFuel fuel chunks heap'
      | r :: rest => e.1 :: mergeLoopFuel fuel (chunks.set e.2 rest) ((r, e.2) :: heap')

/-- Fuel bound used by the merge loop: heap size plus unread records. -/
def mergeMeasure (chunks : List (List α)) (heap : List (α × Nat)) : Nat :=
  heap.length + (chunks.map List.length).sum

theorem mergeMeasure_pop (chunks : List (List α)) {heap heap' : List (α × Nat)}
    {e : α × Nat} (hpop : popMin heap = some (e, heap')) :
    mergeMeasure chunks heap' + 1 = mergeMeasure chunks heap := by
  unfold mergeMeasure
  have := popMin_length hpop
  omega

theorem mergeMeasure_push {chunks : List (List α)} {heap heap' : List (α × Nat)}
    {e : α × Nat} {r : α} {rest : List α} (hpop : popMin heap = some (e, heap'))
    (hc : chunks.getD e.2 [] = r :: rest) :
    mergeMeasure (chunks.set e.2 rest) ((r, e.2) :: heap') + 1 =
      mergeMeasure chunks heap := by
  unfold mergeMeasure
  have h1 := popMin_length hpop
  have h2 := sum_lengths_set hc
  simp only [List.length_cons]
  omega

theorem mergeLoopFuel_irrel {fuel₁ : Nat} :
    ∀ (fuel₂ : Nat) (chunks : List (List α)) (heap : List (α × Nat)),
      mergeMeasure chunks heap ≤ fuel₁ → mergeMeasure chunks heap ≤ fuel₂ →
      mergeLoopFuel fuel₁ chunks heap = mergeLoopFuel fuel₂ chunks heap := by
  induction fuel₁ with
  | zero =>
    intro fuel₂ chunks heap h₁ _
    have hheap : heap = [] := by
      unfold mergeMeasure at h₁
      cases heap with
      | nil => rfl
      | cons a t => simp at h₁
    subst hheap
    cases fuel₂ with
    | zero => rfl
    | succ k => simp [mergeLoopFuel, popMin]
  | succ k ih =>
    intro fuel₂ chunks heap h₁ h₂
    cases fuel₂ with
    | zero =>
      have hheap : heap = [] := by
        unfold mergeMeasure at h₂
        cases heap with
        | nil => rfl
        | cons a t => simp at h₂
      subst hheap
      simp [mergeLoopFuel, popMin]
    | succ j =>
      show mergeLoopFuel (k + 1) chunks heap = mergeLoopFuel (j + 1) chunks heap
      rcases hpop : popMin heap with _ | ⟨e, heap'⟩
      · simp [mergeLoopFuel, hpop]
      · have hm := mergeMeasure_pop chunks hpop
        rcases hc : chunks.getD e.2 [] with _ | ⟨r, rest⟩
        · have hrec := ih j chunks heap' (by omega) (by omega)
          simp only [mergeLoopFuel, hpop, hc, hrec]
        · have hm2 := mergeMeasure_push hpop hc
          have hrec := ih j (chunks.set e.2 rest) ((r, e.2) :: heap') (by omega) (by omega)
          simp only [mergeLoopFuel, hpop, hc, hrec]

/-- The main merge loop of `_merge_chunks` (lines S13–S15): pop the least
`(value, idx)` pair, emit `value`, read the next record of chunk `idx` and
push it if the chunk is not exhausted.  `chunks` holds each chunk's unread
records (the read cursor's remainder); `heap` is the current heap content. -/
def mergeLoop (chunks : List (List α)) (heap : List (α × Nat)) : List α :=
  mergeLoopFuel (mergeMeasure chunks heap) chunks heap

/-- The step equation of the merge loop. -/
theorem mergeLoop_eq (chunks : List (List α)) (heap : List (α × Nat)) :
    mergeLoop chunks heap =
      match popMin heap with
      | none => []
      | some (e, heap') =>
        match chunks.getD e.2 [] with
        | [] => e.1 :: mergeLoop chunks heap'
        | r :: rest => e.1 :: mergeLoop (chunks.set e.2 rest) ((r, e.2) :: heap') := by
  unfold mergeLoop
  rcases hpop : popMin heap with _ | ⟨e, heap'⟩
  · rcases hm : mergeMeasure chunks heap with _ | k
    · rfl
    · simp [mergeLoopFuel, hpop]
  · have hm1 := mergeMeasure_pop chunks hpop
    have h1 : mergeMeasure chunks heap = (mergeMeasure chunks heap - 1) + 1 := by omega
    rw [h1]
    rcases hc : chunks.getD e.2 [] with _ | ⟨r, rest⟩
    · have hrec : mergeLoopFuel (mergeMeasure chunks heap - 1) chunks heap' =
          mergeLoopFuel (mergeMeasure chunks heap') chunks heap' :=
        mergeLoopFuel_irrel (mergeMeasure chunks heap') chunks heap'
          (by omega) (by omega)
      simp only [mergeLoopFuel, hpop, hc, hrec]
    · have hm2 := mergeMeasure_push hpop hc
      have hrec : mergeLoopFuel (mergeMeasure chunks heap - 1)
            (chunks.set e.2 rest) ((r, e.2) :: heap') =
          mergeLoopFuel (mergeMeasure (chunks.set e.2 rest) ((r, e.2) :: heap'))
            (chunks.set e.2 rest) ((r, e.2) :: heap') :=
        mergeLoopFuel_irrel (mergeMeasure (chunks.set e.2 rest) ((r, e.2) :: heap'))
          (chunks.set e.2 rest) ((r, e.2) :: heap') (by omega) (by omega)
      simp only [mergeLoopFuel, hpop, hc, hrec]

/-- Heap initialization of `_merge_chunks` (line S12): for each file index `i`
in order, push `(first line, i)` if the file is non-empty.  The auxiliary
index argument threads the `enumerate` counter. -/
def initHeapAux : List (List α) → Nat → List (α × Nat)
  | [], _ => []
  | [] :: cs, i => initHeapAux cs (i + 1)
  | (v :: _) :: cs, i => (v, i) :: initHeapAux cs (i + 1)

def initHeap (cs : List (List α)) : List (α × Nat) := initHeapAux cs 0

/-- Model of `_merge_chunks` on the chunk contents: after seeding the heap with each
chunk's first record, the cursors stand after that record, so the loop runs
on the tails. -/
def mergeChunks (cs : List (List α)) : List α :=
  mergeLoop (cs.map List.tail) (initHeap cs)

/-- The reading loop of `_create_sorted_chunks` (S1–S9): append each record to
the buffer; when the buffer length reaches `chunk_size`, sort it (Python
`list.sort` is a stable sort, modelled by `insertionSort`) and flush it as
temp file number `counter`; after the loop, flush a non-empty remainder.
`chunk_size` is an `Int` because Python also admits negative values. -/
def chunksLoop (chunkSize : Int) : List α → List α → Nat → List (Nat × List α)
  | [], buf, counter =>
    if buf.isEmpty then [] else [(counter, List.insertionSort (· ≤ ·) buf)]
  | r :: rs, buf, counter =>
    let buf' := buf ++ [r]
    if (buf'.length : Int) ≥ chunkSize then
      (counter, List.insertionSort (· ≤ ·) buf') :: chunksLoop chunkSize rs [] (counter + 1)
    else
      chunksLoop chunkSize rs buf' counter

/-- Model of `_create_sorted_chunks`: returns the list of temp files as pairs
`(file counter, sorted records)`. -/
def createSortedChunks (chunkSize : Int) (input : List α) : List (Nat × List α) :=
  chunksLoop chunkSize input [] 0

/-- Model of `sort_file`: chunking phase followed by the k-way merge of the chunk
contents, as the list of records written to the output file. -/
def sortFile (chunkSize : Int) (input : List α) : List α :=
  mergeChunks ((createSortedChunks chunkSize input).map Prod.snd)

theorem mergeLoop_nil (chunks : List (List α)) : mergeLoop chunks [] = [] := by
  rw [mergeLoop_eq]
  rfl

theorem mergeLoop_step_exhausted {chunks : List (List α)}
    {heap heap' : List (α × Nat)} {e : α × Nat}
    (hpop : popMin heap = some (e, heap')) (hc : chunks.getD e.2 [] = []) :
    mergeLoop chunks heap = e.1 :: mergeLoop chunks heap' := by
  rw [mergeLoop_eq, hpop]
  simp only [hc]

theorem mergeLoop_step_push {chunks : List (List α)}
    {heap heap' : List (α × Nat)} {e : α × Nat} {r : α} {rest : List α}
    (hpop : popMin heap = some (e, heap')) (hc : chunks.getD e.2 [] = r :: rest) :
    mergeLoop chunks heap =
      e.1 :: mergeLoop (chunks.set e.2 rest) ((r, e.2) :: heap') := by
  rw [mergeLoop_eq, hpop]
  simp only [hc]

/-! ## List helpers about `getD`, `set` and `flatten` -/

theorem getD_set_self {β : Type} {l : List (List β)} {i : Nat} {x : List β}
    (h : i < l.length) : (l.set i x).getD i [] = x := by
  induction l generalizing i with
  | nil => simp at h
  | cons c l' ih =>
    cases i with
    | zero => simp
    | succ n =>
      simp only [List.set_cons_succ, List.getD_cons_succ]
      exact ih (by simpa using h)

theorem getD_set_ne {β : Type} {l : List (List β)} {i j : Nat} {x : List β}
    (h : i ≠ j) : (l.set i x).getD j [] = l.getD j [] := by
  induction l generalizing i j with
  | nil => simp [List.set]
  | cons c l' ih =>
    cases i with
    | zero =>
      cases j with
      | zero => exact absurd rfl h
      | succ m => simp
    | succ n =>
      cases j with
      | zero => simp
      | succ m =>
        simp only [List.set_cons_succ, List.getD_cons_succ]
        exact ih (by omega)

theorem getD_map_tail {β : Type} (l : List (List β)) (i : Nat) :
    (l.map List.tail).getD i [] = (l.getD i []).tail := by
  induction l generalizing i with
  | nil => simp
  | cons c l' ih =>
    cases i with
    | zero => simp
    | succ n => simpa using ih n

theorem flatten_set_perm {β : Type} {l : List (List β)} {i : Nat} {r : β}
    {rest : List β} (hc : l.getD i [] = r :: rest) :
    l.flatten.Perm (r :: (l.set i rest).flatten) := by
  induction l generalizing i with
  | nil => simp [List.getD] at hc
  | cons c l' ih =>
    cases i with
    | zero =>
      rw [List.getD_cons_zero] at hc
      subst hc
      simp
    | succ n =>
      rw [List.getD_cons_succ] at hc
      have := ih hc
      simp only [List.set_cons_succ, List.flatten_cons]
      exact (List.Perm.append_left c this).trans List.perm_middle

theorem flatten_eq_nil_of_getD {β : Type} {l : List (List β)}
    (h : ∀ i, i < l.length → l.getD i [] = []) : l.flatten = [] := by
  induction l with
  | nil => rfl
  | cons c l' ih =>
    have hc : c = [] := h 0 (by simp)
    have : ∀ i, i < l'.length → l'.getD i [] = [] := by
      intro i hi
      have := h (i + 1) (by simp; omega)
      simpa using this
    simp [hc, ih this]

/-! ## Merge-loop invariants

`chunks` holds the unread remainder of each chunk, `heap` the live heap
entries.  The facts preserved by every loop iteration are: each heap entry's
value bounds its chunk's unread records (`HeapLeChunks`), each unread
remainder is sorted (`ChunksSorted`), and a chunk with no heap entry has been
fully consumed (`NoOrphans`). -/

def HeapLeChunks (chunks : List (List α)) (heap : List (α × Nat)) : Prop :=
  ∀ e ∈ heap, ∀ x ∈ chunks.getD e.2 [], e.1 ≤ x

def ChunksSorted (chunks : List (List α)) : Prop :=
  ∀ i : Nat, List.Sorted (· ≤ ·) (chunks.getD i [])

def NoOrphans (chunks : List (List α)) (heap : List (α × Nat)) : Prop :=
  ∀ i : Nat, i < chunks.length → (∀ e ∈ heap, e.2 ≠ i) → chunks.getD i [] = []

theorem heapLeChunks_pop {chunks : List (List α)} {heap heap' : List (α × Nat)}
    {e : α × Nat} (hpop : popMin heap = some (e, heap'))
    (h : HeapLeChunks chunks heap) : HeapLeChunks chunks heap' := by
  intro f hf
  exact h f ((popMin_perm hpop).mem_iff.mpr (List.mem_cons_of_mem e hf))

theorem heapLeChunks_push {chunks : List (List α)} {heap heap' : List (α × Nat)}
    {e : α × Nat} {r : α} {rest : List α} (hpop : popMin heap = some (e, heap'))
    (hc : chunks.getD e.2 [] = r :: rest) (h : HeapLeChunks chunks heap)
    (hs : ChunksSorted chunks) :
    HeapLeChunks (chunks.set e.2 rest) ((r, e.2) :: heap') := by
  have hlt : e.2 < chunks.length := getD_ne_nil_lt_length (by rw [hc]; simp)
  intro f hf x hx
  rcases List.mem_cons.mp hf with hf | hf
  · subst hf
    rw [getD_set_self hlt] at hx
    have := hs e.2
    rw [hc] at this
    exact (List.sorted_cons.mp this).1 x hx
  · have hfheap : f ∈ heap := (popMin_perm hpop).mem_iff.mpr (List.mem_cons_of_mem e hf)
    by_cases hij : e.2 = f.2
    · rw [← hij, getD_set_self hlt] at hx
      exact h f hfheap x (by rw [← hij, hc]; exact List.mem_cons_of_mem r hx)
    · rw [getD_set_ne hij] at hx
      exact h f hfheap x hx

theorem chunksSorted_set {chunks : List (List α)} {i : Nat} {r : α}
    {rest : List α} (hc : chunks.getD i [] = r :: rest) (hs : ChunksSorted chunks) :
    ChunksSorted (chunks.set i rest) := by
  intro j
  by_cases hij : i = j
  · subst hij
    rcases Nat.lt_or_ge i chunks.length with hlt | hge
    · rw [getD_set_self hlt]
      have := hs i
      rw [hc] at this
      exact this.tail
    · rw [List.getD_eq_default]
      · exact List.sorted_nil
      · simpa using hge
  · rw [getD_set_ne hij]
    exact hs j

theorem noOrphans_pop {chunks : List (List α)} {heap heap' : List (α × Nat)}
    {e : α × Nat} (hpop : popMin heap = some (e, heap'))
    (hc : chunks.getD e.2 [] = []) (h : NoOrphans chunks heap) :
    NoOrphans chunks heap' := by
  intro i hi hnone
  by_cases hei : e.2 = i
  · rw [← hei]; exact hc
  · refine h i hi ?_
    intro f hf
    rcases List.mem_cons.mp ((popMin_perm hpop).mem_iff.mp hf) with hf' | hf'
    · rw [hf']; exact hei
    · exact hnone f hf'

theorem noOrphans_push {chunks : List (List α)} {heap heap' : List (α × Nat)}
    {e : α × Nat} {r : α} {rest : List α} (hpop : popMin heap = some (e, heap'))
    (h : NoOrphans chunks heap) :
    NoOrphans (chunks.set e.2 rest) ((r, e.2) :: heap') := by
  intro i hi hnone
  have hei : e.2 ≠ i := hnone (r, e.2) (List.mem_cons_self _ _)
  rw [getD_set_ne hei]
  refine h i (by simpa using hi) ?_
  intro f hf
  rcases List.mem_cons.mp ((popMin_perm hpop).mem_iff.mp hf) with hf' | hf'
  · rw [hf']; exact hei
  · exact hnone f (List.mem_cons_of_mem _ hf')

/-! ## Merge-loop correctness -/

/-- The records the merge loop emits are a permutation of the heap's values
together with all unread chunk records. -/
theorem mergeLoop_perm_aux (n : Nat) :
    ∀ (chunks : List (List α)) (heap : List (α × Nat)),
      mergeMeasure chunks heap ≤ n → NoOrphans chunks heap →
      (mergeLoop chunks heap).Perm (heap.map Prod.fst ++ chunks.flatten) := by
  induction n with
  | zero =>
    intro chunks heap hm hno
    have hheap : heap = [] := by
      unfold mergeMeasure at hm
      cases heap with
      | nil => rfl
      | cons a t => simp at hm
    subst hheap
    rw [mergeLoop_nil]
    have hflat : chunks.flatten = [] := by
      refine flatten_eq_nil_of_getD ?_
      intro i hi
      exact hno i hi (by simp)
    simp [hflat]
  | succ k ih =>
    intro chunks heap hm hno
    rcases hpop : popMin heap with _ | ⟨e, heap'⟩
    · have hheap : heap = [] := popMin_eq_none hpop
      subst hheap
      rw [mergeLoop_nil]
      have hflat : chunks.flatten = [] := by
        refine flatten_eq_nil_of_getD ?_
        intro i hi
        exact hno i hi (by simp)
      simp [hflat]
    · have hmapfst : (heap.map Prod.fst).Perm (e.1 :: heap'.map Prod.fst) :=
        (popMin_perm hpop).map Prod.fst
      rcases hc : chunks.getD e.2 [] with _ | ⟨r, rest⟩
      · rw [mergeLoop_step_exhausted hpop hc]
        have hm' : mergeMeasure chunks heap' ≤ k := by
          have := mergeMeasure_pop chunks hpop
          omega
        have hrec := ih chunks heap' hm' (noOrphans_pop hpop hc hno)
        exact (hrec.cons e.1).trans (hmapfst.append_right chunks.flatten).symm
      · rw [mergeLoop_step_push hpop hc]
        have hm' : mergeMeasure (chunks.set e.2 rest) ((r, e.2) :: heap') ≤ k := by
          have := mergeMeasure_push hpop hc
          omega
        have hrec := ih (chunks.set e.2 rest) ((r, e.2) :: heap') hm'
          (noOrphans_push hpop hno)
        have chain : (heap.map Prod.fst ++ chunks.flatten).Perm
            (e.1 :: r :: (heap'.map Prod.fst ++ (chunks.set e.2 rest).flatten)) :=
          (hmapfst.append_right chunks.flatten).trans
            (((List.Perm.append_left (heap'.map Prod.fst)
              (flatten_set_perm hc)).trans List.perm_middle).cons e.1)
        exact (hrec.cons e.1).trans chain.symm

/-- Every record the merge loop emits is bounded below by any lower bound of
the current heap values, given the loop invariants. -/
theorem mergeLoop_lowerBound_aux (n : Nat) :
    ∀ (chunks : List (List α)) (heap : List (α × Nat)),
      mergeMeasure chunks heap ≤ n →
      HeapLeChunks chunks heap → ChunksSorted chunks →
      ∀ b : α, (∀ e ∈ heap, b ≤ e.1) → ∀ x ∈ mergeLoop chunks heap, b ≤ x := by
  induction n with
  | zero =>
    intro chunks heap hm _ _ b _ x hx
    have hheap : heap = [] := by
      unfold mergeMeasure at hm
      cases heap with
      | nil => rfl
      | cons a t => simp at hm
    subst hheap
    rw [mergeLoop_nil] at hx
    simp at hx
  | succ k ih =>
    intro chunks heap hm hle hs b hb x hx
    rcases hpop : popMin heap with _ | ⟨e, heap'⟩
    · have hheap : heap = [] := popMin_eq_none hpop
      subst hheap
      rw [mergeLoop_nil] at hx
      simp at hx
    · have hbe : b ≤ e.1 := hb e ((popMin_perm hpop).mem_iff.mpr (List.mem_cons_self _ _))
      have hb' : ∀ f ∈ heap', b ≤ f.1 := fun f hf =>
        hb f ((popMin_perm hpop).mem_iff.mpr (List.mem_cons_of_mem e hf))
      rcases hc : chunks.getD e.2 [] with _ | ⟨r, rest⟩
      · rw [mergeLoop_step_exhausted hpop hc] at hx
        rcases List.mem_cons.mp hx with hx | hx
        · rw [hx]; exact hbe
        · have hm' : mergeMeasure chunks heap' ≤ k := by
            have := mergeMeasure_pop chunks hpop
            omega
          exact ih chunks heap' hm' (heapLeChunks_pop hpop hle) hs b hb' x hx
      · rw [mergeLoop_step_push hpop hc] at hx
        rcases List.mem_cons.mp hx with hx | hx
        · rw [hx]; exact hbe
        · have hm' : mergeMeasure (chunks.set e.2 rest) ((r, e.2) :: heap') ≤ k := by
            have := mergeMeasure_push hpop hc
            omega
          have hbr : b ≤ r :=
            le_trans hbe (hle e ((popMin_perm hpop).mem_iff.mpr
              (List.mem_cons_self _ _)) r (by rw [hc]; exact List.mem_cons_self _ _))
          refine ih (chunks.set e.2 rest) ((r, e.2) :: heap') hm'
            (heapLeChunks_push hpop hc hle hs) (chunksSorted_set hc hs) b ?_ x hx
          intro f hf
          rcases List.mem_cons.mp hf with hf | hf
          · rw [hf]; exact hbr
          · exact hb' f hf

/-- The record sequence the merge loop emits is sorted, given the loop
invariants. -/
theorem mergeLoop_sorted_aux (n : Nat) :
    ∀ (chunks : List (List α)) (heap : List (α × Nat)),
      mergeMeasure chunks heap ≤ n →
      HeapLeChunks chunks heap → ChunksSorted chunks →
      List.Sorted (· ≤ ·) (mergeLoop chunks heap) := by
  induction n with
  | zero =>
    intro chunks heap hm _ _
    have hheap : heap = [] := by
      unfold mergeMeasure at hm
      cases heap with
      | nil => rfl
      | cons a t => simp at hm
    subst hheap
    rw [mergeLoop_nil]
    exact List.sorted_nil
  | succ k ih =>
    intro chunks heap hm hle hs
    rcases hpop : popMin heap with _ | ⟨e, heap'⟩
    · have hheap : heap = [] := popMin_eq_none hpop
      subst hheap
      rw [mergeLoop_nil]
      exact List.sorted_nil
    · have hemin : ∀ f ∈ heap', e.1 ≤ f.1 := fun f hf =>
        entryLe_val (popMin_le hpop f
          ((popMin_perm hpop).mem_iff.mpr (List.mem_cons_of_mem e hf)))
      rcases hc : chunks.getD e.2 [] with _ | ⟨r, rest⟩
      · rw [mergeLoop_step_exhausted hpop hc]
        have hm' : mergeMeasure chunks heap' ≤ k := by
          have := mergeMeasure_pop chunks hpop
          omega
        refine List.sorted_cons.mpr ⟨?_, ih chunks heap' hm' (heapLeChunks_pop hpop hle) hs⟩
        exact mergeLoop_lowerBound_aux k chunks heap' hm'
          (heapLeChunks_pop hpop hle) hs e.1 hemin
      · rw [mergeLoop_step_push hpop hc]
        have hm' : mergeMeasure (chunks.set e.2 rest) ((r, e.2) :: heap') ≤ k := by
          have := mergeMeasure_push hpop hc
          omega
        have her : e.1 ≤ r :=
          hle e ((popMin_perm hpop).mem_iff.mpr (List.mem_cons_self _ _)) r
            (by rw [hc]; exact List.mem_cons_self _ _)
        have hb' : ∀ f ∈ (r, e.2) :: heap', e.1 ≤ f.1 := by
          intro f hf
          rcases List.mem_cons.mp hf with hf | hf
          · rw [hf]; exact her
          · exact hemin f hf
        refine List.sorted_cons.mpr ⟨?_, ih (chunks.set e.2 rest) ((r, e.2) :: heap') hm'
          (heapLeChunks_push hpop hc hle hs) (chunksSorted_set hc hs)⟩
        exact mergeLoop_lowerBound_aux k (chunks.set e.2 rest) ((r, e.2) :: heap') hm'
          (heapLeChunks_push hpop hc hle hs) (chunksSorted_set hc hs) e.1 hb'

/-! ## Heap initialization -/

omit [LinearOrder α] in
theorem initHeapAux_mem {cs : List (List α)} {n : Nat} {v : α} {i : Nat}
    (h : (v, i) ∈ initHeapAux cs n) :
    n ≤ i ∧ (cs.getD (i - n) []).head? = some v := by
  induction cs generalizing n with
  | nil => simp [initHeapAux] at h
  | cons c cs' ih =>
    cases c with
    | nil =>
      rw [initHeapAux] at h
      obtain ⟨h1, h2⟩ := ih h
      refine ⟨by omega, ?_⟩
      have : i - n = (i - (n + 1)) + 1 := by omega
      rw [this, List.getD_cons_succ]
      exact h2
    | cons a t =>
      rw [initHeapAux] at h
      rcases List.mem_cons.mp h with h | h
      · have hv : v = a ∧ i = n := by
          constructor <;> [exact congrArg Prod.fst h; exact congrArg Prod.snd h]
        obtain ⟨hv, hi⟩ := hv
        subst hv hi
        simp
      · obtain ⟨h1, h2⟩ := ih h
        refine ⟨by omega, ?_⟩
        have : i - n = (i - (n + 1)) + 1 := by omega
        rw [this, List.getD_cons_succ]
        exact h2

omit [LinearOrder α] in
theorem initHeapAux_head {cs : List (List α)} {i : Nat} {v : α}
    (hi : i < cs.length) (hh : (cs.getD i []).head? = some v) :
    ∀ n : Nat, (v, n + i) ∈ initHeapAux cs n := by
  induction cs generalizing i with
  | nil => simp at hi
  | cons c cs' ih =>
    intro n
    cases i with
    | zero =>
      rw [List.getD_cons_zero] at hh
      cases c with
      | nil => simp at hh
      | cons a t =>
        simp at hh
        subst hh
        rw [initHeapAux]
        exact List.mem_cons_self _ _
    | succ m =>
      rw [List.getD_cons_succ] at hh
      have hm : m < cs'.length := by simpa using hi
      have := ih hm hh (n + 1)
      have harith : n + (m + 1) = (n + 1) + m := by omega
      rw [harith]
      cases c with
      | nil => rw [initHeapAux]; exact this
      | cons a t => rw [initHeapAux]; exact List.mem_cons_of_mem _ this

omit [LinearOrder α] in
theorem initHeapAux_map_fst (cs : List (List α)) (n : Nat) :
    (initHeapAux cs n).map Prod.fst = cs.filterMap List.head? := by
  induction cs generalizing n with
  | nil => rfl
  | cons c cs' ih =>
    cases c with
    | nil => simpa [initHeapAux] using ih (n + 1)
    | cons a t => simpa [initHeapAux] using ih (n + 1)

omit [LinearOrder α] in
theorem heads_append_tails (cs : List (List α)) :
    (cs.filterMap List.head? ++ (cs.map List.tail).flatten).Perm cs.flatten := by
  induction cs with
  | nil => simp
  | cons c cs' ih =>
    cases c with
    | nil => simpa using ih
    | cons a t =>
      simp only [List.filterMap_cons, List.head?_cons, List.map_cons, List.tail_cons,
        List.flatten_cons, List.cons_append, List.flatten, Option.toList]
      refine List.Perm.cons a ?_
      have h1 : cs'.filterMap List.head? ++ (t ++ (cs'.map List.tail).flatten)
          = (cs'.filterMap List.head? ++ t) ++ (cs'.map List.tail).flatten := by
        rw [List.append_assoc]
      rw [h1]
      refine (List.Perm.append_right _ List.perm_append_comm).trans ?_
      rw [List.append_assoc]
      exact List.Perm.append_left t ih

theorem initHeap_heapLe (cs : List (List α)) (hs : ∀ i : Nat, List.Sorted (· ≤ ·) (cs.getD i [])) :
    HeapLeChunks (cs.map List.tail) (initHeap cs) := by
  rintro ⟨v, i⟩ he x hx
  obtain ⟨_, hh⟩ := initHeapAux_mem he
  simp only [Nat.sub_zero] at hh
  rw [getD_map_tail] at hx
  rcases hget : cs.getD i [] with _ | ⟨a, t⟩
  · rw [hget] at hx; simp at hx
  · rw [hget] at hh hx
    simp at hh
    subst hh
    have := hs i
    rw [hget] at this
    exact (List.sorted_cons.mp this).1 x hx

omit [LinearOrder α] in
theorem initHeap_noOrphans (cs : List (List α)) :
    NoOrphans (cs.map List.tail) (initHeap cs) := by
  intro i hi hnone
  rw [getD_map_tail]
  rcases hget : cs.getD i [] with _ | ⟨a, t⟩
  · rfl
  · exfalso
    have hlen : i < cs.length := by simpa using hi
    have : (a, 0 + i) ∈ initHeapAux cs 0 :=
      initHeapAux_head hlen (by rw [hget]; rfl) 0
    exact hnone (a, 0 + i) this (by omega)

theorem chunksSorted_tails (cs : List (List α))
    (hs : ∀ i : Nat, List.Sorted (· ≤ ·) (cs.getD i [])) :
    ChunksSorted (cs.map List.tail) := by
  intro i
  rw [getD_map_tail]
  exact (hs i).tail

/-- The merge phase emits a permutation of all chunk records. -/
theorem mergeChunks_perm (cs : List (List α)) : (mergeChunks cs).Perm cs.flatten := by
  unfold mergeChunks
  have h1 := mergeLoop_perm_aux (mergeMeasure (cs.map List.tail) (initHeap cs))
    (cs.map List.tail) (initHeap cs) (le_refl _) (initHeap_noOrphans cs)
  refine h1.trans ?_
  rw [initHeap, initHeapAux_map_fst]
  exact heads_append_tails cs

/-- The merge phase emits a sorted sequence when every chunk is sorted. -/
theorem mergeChunks_sorted (cs : List (List α))
    (hs : ∀ i : Nat, List.Sorted (· ≤ ·) (cs.getD i [])) :
    List.Sorted (· ≤ ·) (mergeChunks cs) := by
  unfold mergeChunks
  exact mergeLoop_sorted_aux (mergeMeasure (cs.map List.tail) (initHeap cs))
    (cs.map List.tail) (initHeap cs) (le_refl _) (initHeap_heapLe cs hs)
    (chunksSorted_tails cs hs)

/-! ## Chunking-phase lemmas -/

theorem chunksLoop_flatten_perm (c : Int) :
    ∀ (input buf : List α) (n : Nat),
      (((chunksLoop c input buf n).map Prod.snd).flatten).Perm (buf ++ input) := by
  intro input
  induction input with
  | nil =>
    intro buf n
    rw [chunksLoop]
    by_cases hbuf : buf.isEmpty
    · rw [if_pos hbuf]
      simp [List.isEmpty_iff.mp hbuf]
    · rw [if_neg hbuf]
      simpa using List.perm_insertionSort (· ≤ ·) buf
  | cons r rs ih =>
    intro buf n
    rw [chunksLoop]
    by_cases hfull : ((buf ++ [r]).length : Int) ≥ c
    · rw [if_pos hfull]
      simp only [List.map_cons, List.flatten_cons]
      have h1 := List.perm_insertionSort (· ≤ ·) (buf ++ [r])
      have h2 := ih [] (n + 1)
      simp only [List.nil_append] at h2
      refine (h1.append h2).trans ?_
      rw [List.append_assoc]
      simp
    · rw [if_neg hfull]
      have := ih (buf ++ [r]) n
      refine this.trans ?_
      rw [List.append_assoc]
      simp

theorem chunksLoop_all_sorted (c : Int) :
    ∀ (input buf : List α) (n : Nat),
      ∀ t ∈ chunksLoop c input buf n, List.Sorted (· ≤ ·) t.2 := by
  intro input
  induction input with
  | nil =>
    intro buf n t ht
    rw [chunksLoop] at ht
    by_cases hbuf : buf.isEmpty
    · rw [if_pos hbuf] at ht; simp at ht
    · rw [if_neg hbuf] at ht
      simp at ht
      rw [ht]
      exact List.sorted_insertionSort (· ≤ ·) buf
  | cons r rs ih =>
    intro buf n t ht
    rw [chunksLoop] at ht
    by_cases hfull : ((buf ++ [r]).length : Int) ≥ c
    · rw [if_pos hfull] at ht
      rcases List.mem_cons.mp ht with ht | ht
      · rw [ht]
        exact List.sorted_insertionSort (· ≤ ·) (buf ++ [r])
      · exact ih [] (n + 1) t ht
    · rw [if_neg hfull] at ht
      exact ih (buf ++ [r]) n t ht

theorem chunksLoop_ids (c : Int) :
    ∀ (input buf : List α) (n : Nat),
      (chunksLoop c input buf n).map Prod.fst =
        List.range' n (chunksLoop c input buf n).length := by
  intro input
  induction input with
  | nil =>
    intro buf n
    rw [chunksLoop]
    by_cases hbuf : buf.isEmpty
    · rw [if_pos hbuf]; rfl
    · rw [if_neg hbuf]; rfl
  | cons r rs ih =>
    intro buf n
    rw [chunksLoop]
    by_cases hfull : ((buf ++ [r]).length : Int) ≥ c
    · rw [if_pos hfull]
      simp only [List.map_cons, List.length_cons, List.range'_succ]
      rw [ih [] (n + 1)]
    · rw [if_neg hfull]
      exact ih (buf ++ [r]) n

theorem chunksLoop_full_lengths (c : Int) (hc : 0 < c) :
    ∀ (input buf : List α) (n : Nat), (buf.length : Int) < c →
      ∀ t ∈ (chunksLoop c input buf n).dropLast, (t.2.length : Int) = c := by
  intro input
  induction input with
  | nil =>
    intro buf n _ t ht
    rw [chunksLoop] at ht
    by_cases hbuf : buf.isEmpty
    · rw [if_pos hbuf] at ht; simp at ht
    · rw [if_neg hbuf] at ht; simp at ht
  | cons r rs ih =>
    intro buf n hlt t ht
    rw [chunksLoop] at ht
    by_cases hfull : ((buf ++ [r]).length : Int) ≥ c
    · rw [if_pos hfull] at ht
      have hlen : ((buf ++ [r]).length : Int) = c := by
        simp at hfull hlt ⊢
        omega
      rcases hrest : chunksLoop c rs [] (n + 1) with _ | ⟨y, ys⟩
      · rw [hrest] at ht
        simp at ht
      · rw [hrest] at ht
        rw [List.dropLast_cons₂] at ht
        rcases List.mem_cons.mp ht with ht | ht
        · rw [ht]
          simp only [List.length_insertionSort]
          exact hlen
        · have := ih [] (n + 1) (by simpa using hc) t
          rw [hrest] at this
          exact this ht
    · rw [if_neg hfull] at ht
      have hlt' : (((buf ++ [r]).length : Int)) < c := by
        simpa using hfull
      exact ih (buf ++ [r]) n hlt' t ht

theorem createSortedChunks_flatten_perm (c : Int) (input : List α) :
    (((createSortedChunks c input).map Prod.snd).flatten).Perm input := by
  have := chunksLoop_flatten_perm c input [] 0
  simpa using this

theorem createSortedChunks_all_sorted (c : Int) (input : List α) :
    ∀ t ∈ createSortedChunks c input, List.Sorted (· ≤ ·) t.2 :=
  chunksLoop_all_sorted c input [] 0

theorem createSortedChunks_ids (c : Int) (input : List α) :
    (createSortedChunks c input).map Prod.fst =
      List.range' 0 (createSortedChunks c input).length :=
  chunksLoop_ids c input [] 0

/-! ## `sort_file` master theorems -/

theorem sortFile_perm (c : Int) (input : List α) : (sortFile c input).Perm input := by
  unfold sortFile
  exact (mergeChunks_perm _).trans (createSortedChunks_flatten_perm c input)

theorem sortFile_sorted (c : Int) (input : List α) :
    List.Sorted (· ≤ ·) (sortFile c input) := by
  unfold sortFile
  refine mergeChunks_sorted _ ?_
  intro i
  rcases Nat.lt_or_ge i ((createSortedChunks c input).map Prod.snd).length with hi | hi
  · have hmem : ((createSortedChunks c input).map Prod.snd).getD i [] ∈
        (createSortedChunks c input).map Prod.snd := by
      rw [List.getD_eq_getElem _ _ hi]
      exact List.getElem_mem hi
    rcases List.mem_map.mp hmem with ⟨t, ht, hts⟩
    rw [← hts]
    exact createSortedChunks_all_sorted c input t ht
  · rw [List.getD_eq_default _ _ hi]
    exact List.sorted_nil

/-- Any two runs, with any chunk sizes, produce the same output on the same
input: the canonical sorted permutation of the input. -/
theorem sortFile_eq_insertionSort (c : Int) (input : List α) :
    sortFile c input = List.insertionSort (· ≤ ·) input :=
  List.eq_of_perm_of_sorted
    ((sortFile_perm c input).trans (List.perm_insertionSort (· ≤ ·) input).symm)
    (sortFile_sorted c input)
    (List.sorted_insertionSort (· ≤ ·) input)

/-! ## Effectful model: temp files, destination file, induced write failure

`FS` is the relevant slice of the filesystem: the temp chunk files currently
present (pairs of file counter and contents, `temp_<k>.txt` ↦ `(k, records)`)
and the contents at the named destination (`none` = absent).  `sortFileRun`
runs `sort_file` on this state; `budget = some j` induces a failure on the
`(j+1)`-th write to the output file during the merge (the first `j` writes
succeed), `budget = none` injects no fault.  In the source, `_merge_chunks`
opens the destination with mode `"w"` (truncating/creating it) before the
loop and removes the temp files only in straight-line code after the loop,
so an exception escaping the loop skips the removal and leaves whatever was
already written at the destination. -/

structure FS (β : Type) where
  temps : List (Nat × List β)
  output : Option (List β)
deriving DecidableEq

inductive RunResult (β : Type) where
  | ok : FS β → RunResult β
  | err : FS β → RunResult β
deriving DecidableEq

/-- The merge loop with an induced write failure, mirroring `mergeLoopFuel`:
returns the records successfully written to the output file and whether the
loop finished without raising. -/
def mergeLoopFFuel : Nat → List (List α) → List (α × Nat) → Option Nat →
    List α × Bool
  | 0, _, _, _ => ([], true)
  | fuel + 1, chunks, heap, budget =>
    match popMin heap with
    | none => ([], true)
    | some (e, heap') =>
      if budget = some 0 then ([], false)
      else
        let budget' := budget.map (fun b => b - 1)
        match chunks.getD e.2 [] with
        | [] =>
          let p := mergeLoopFFuel fuel chunks heap' budget'
          (e.1 :: p.1, p.2)
        | r :: rest =>
          let p := mergeLoopFFuel fuel (chunks.set e.2 rest) ((r, e.2) :: heap') budget'
          (e.1 :: p.1, p.2)

def mergeLoopF (chunks : List (List α)) (heap : List (α × Nat))
    (budget : Option Nat) : List α × Bool :=
  mergeLoopFFuel (mergeMeasure chunks heap) chunks heap budget

theorem mergeLoopFFuel_none (fuel : Nat) :
    ∀ (chunks : List (List α)) (heap : List (α × Nat)),
      mergeMeasure chunks heap ≤ fuel →
      mergeLoopFFuel fuel chunks heap none = (mergeLoopFuel fuel chunks heap, true) := by
  induction fuel with
  | zero => intro chunks heap _; rfl
  | succ k ih =>
    intro chunks heap hm
    show mergeLoopFFuel (k + 1) chunks heap none = (mergeLoopFuel (k + 1) chunks heap, true)
    rcases hpop : popMin heap with _ | ⟨e, heap'⟩
    · simp [mergeLoopFFuel, mergeLoopFuel, hpop]
    · rcases hc : chunks.getD e.2 [] with _ | ⟨r, rest⟩ <;>
        have hc2 := hc <;>
        rw [List.getD_eq_getElem?_getD] at hc2
      · have := mergeMeasure_pop chunks hpop
        have hrec := ih chunks heap' (by omega)
        simp [mergeLoopFFuel, mergeLoopFuel, hpop, hc2, hrec]
      · have := mergeMeasure_push hpop hc
        have hrec := ih (chunks.set e.2 rest) ((r, e.2) :: heap') (by omega)
        simp [mergeLoopFFuel, mergeLoopFuel, hpop, hc2, hrec]

theorem mergeLoopFFuel_some (fuel : Nat) :
    ∀ (chunks : List (List α)) (heap : List (α × Nat)) (j : Nat),
      mergeMeasure chunks heap ≤ fuel →
      mergeLoopFFuel fuel chunks heap (some j) =
        if j < (mergeLoopFuel fuel chunks heap).length
        then ((mergeLoopFuel fuel chunks heap).take j, false)
        else (mergeLoopFuel fuel chunks heap, true) := by
  induction fuel with
  | zero =>
    intro chunks heap j _
    simp [mergeLoopFFuel, mergeLoopFuel]
  | succ k ih =>
    intro chunks heap j hm
    show mergeLoopFFuel (k + 1) chunks heap (some j) =
      if j < (mergeLoopFuel (k + 1) chunks heap).length
      then ((mergeLoopFuel (k + 1) chunks heap).take j, false)
      else (mergeLoopFuel (k + 1) chunks heap, true)
    rcases hpop : popMin heap with _ | ⟨e, heap'⟩
    · simp [mergeLoopFFuel, mergeLoopFuel, hpop]
    · cases j with
      | zero =>
        rcases hc : chunks.getD e.2 [] with _ | ⟨r, rest⟩ <;>
          have hc2 := hc <;>
          rw [List.getD_eq_getElem?_getD] at hc2 <;>
          simp [mergeLoopFFuel, mergeLoopFuel, hpop, hc2]
      | succ m =>
        rcases hc : chunks.getD e.2 [] with _ | ⟨r, rest⟩ <;>
          have hc2 := hc <;>
          rw [List.getD_eq_getElem?_getD] at hc2
        · have := mergeMeasure_pop chunks hpop
          have hrec := ih chunks heap' m (by omega)
          by_cases hlt : m < (mergeLoopFuel k chunks heap').length
          · rw [if_pos (by simp [mergeLoopFuel, hpop, hc2]; omega)]
            simp [mergeLoopFFuel, mergeLoopFuel, hpop, hc2, hrec, hlt]
          · rw [if_neg (by simp [mergeLoopFuel, hpop, hc2]; omega)]
            simp [mergeLoopFFuel, mergeLoopFuel, hpop, hc2, hrec, hlt]
        · have := mergeMeasure_push hpop hc
          have hrec := ih (chunks.set e.2 rest) ((r, e.2) :: heap') m (by omega)
          by_cases hlt : m <
              (mergeLoopFuel k (chunks.set e.2 rest) ((r, e.2) :: heap')).length
          · rw [if_pos (by simp [mergeLoopFuel, hpop, hc2]; omega)]
            simp [mergeLoopFFuel, mergeLoopFuel, hpop, hc2, hrec, hlt]
          · rw [if_neg (by simp [mergeLoopFuel, hpop, hc2]; omega)]
            simp [mergeLoopFFuel, mergeLoopFuel, hpop, hc2, hrec, hlt]

theorem mergeLoopF_none (chunks : List (List α)) (heap : List (α × Nat)) :
    mergeLoopF chunks heap none = (mergeLoop chunks heap, true) :=
  mergeLoopFFuel_none (mergeMeasure chunks heap) chunks heap (le_refl _)

theorem mergeLoopF_some (chunks : List (List α)) (heap : List (α × Nat)) (j : Nat) :
    mergeLoopF chunks heap (some j) =
      if j < (mergeLoop chunks heap).length
      then ((mergeLoop chunks heap).take j, false)
      else (mergeLoop chunks heap, true) :=
  mergeLoopFFuel_some (mergeMeasure chunks heap) chunks heap j (le_refl _)

/-- Reading temp file `temp_<i>.txt`: the contents recorded for id `i`. -/
def lookupTemp (temps : List (Nat × List α)) (i : Nat) : List α :=
  match temps with
  | [] => []
  | t :: ts => if t.1 = i then t.2 else lookupTemp ts i

/-- Model of `os.remove` over the list of temp file names (line S16). -/
def removeTemps {β : Type} (temps : List (Nat × List β)) (ids : List Nat) :
    List (Nat × List β) :=
  temps.filter (fun t => !(decide (t.1 ∈ ids)))

/-- Model of `_merge_chunks` on the filesystem state: open the temp files, seed the
heap, open the destination with mode `"w"` (its contents become the records
written so far), run the merge loop; only if the loop finishes are the temp
files closed and removed. -/
def mergeChunksRun (tempIds : List Nat) (fs : FS α) (budget : Option Nat) :
    RunResult α :=
  let contents := tempIds.map (lookupTemp fs.temps)
  let p := mergeLoopF (contents.map List.tail) (initHeap contents) budget
  if p.2 then RunResult.ok ⟨removeTemps fs.temps tempIds, some p.1⟩
  else RunResult.err ⟨fs.temps, some p.1⟩

/-- Model of `sort_file` on an initially clean filesystem state (no temp files, the
destination absent): the chunking phase writes the temp files, then the
merge phase runs with the given induced-failure budget. -/
def sortFileRun (chunkSize : Int) (input : List α) (budget : Option Nat) :
    RunResult α :=
  let ts := createSortedChunks chunkSize input
  mergeChunksRun (ts.map Prod.fst) ⟨ts, none⟩ budget

omit [LinearOrder α] in
theorem lookupTemp_map_fst {ts : List (Nat × List α)}
    (hnodup : (ts.map Prod.fst).Nodup) :
    (ts.map Prod.fst).map (lookupTemp ts) = ts.map Prod.snd := by
  induction ts with
  | nil => rfl
  | cons t ts' ih =>
    simp only [List.map_cons, List.nodup_cons] at hnodup ⊢
    have hhead : lookupTemp (t :: ts') t.1 = t.2 := by rw [lookupTemp, if_pos rfl]
    have hne : ∀ i ∈ ts'.map Prod.fst, lookupTemp (t :: ts') i = lookupTemp ts' i := by
      intro i hi
      rw [lookupTemp, if_neg]
      intro hti
      exact hnodup.1 (hti ▸ hi)
    rw [hhead, List.map_congr_left hne, ih hnodup.2]

theorem removeTemps_self {β : Type} (ts : List (Nat × List β)) :
    removeTemps ts (ts.map Prod.fst) = [] := by
  rw [removeTemps, List.filter_eq_nil_iff]
  intro t ht
  have hmem : t.1 ∈ ts.map Prod.fst := List.mem_map.mpr ⟨t, ht, rfl⟩
  simp [hmem]

theorem createSortedChunks_ids_nodup (c : Int) (input : List α) :
    ((createSortedChunks c input).map Prod.fst).Nodup := by
  rw [createSortedChunks_ids]
  exact List.nodup_range' _ _

theorem mergeChunksRun_contents (c : Int) (input : List α) :
    ((createSortedChunks c input).map Prod.fst).map
        (lookupTemp (createSortedChunks c input)) =
      (createSortedChunks c input).map Prod.snd :=
  lookupTemp_map_fst (createSortedChunks_ids_nodup c input)

/-- A fault-free run removes every temp file and writes the full sorted
output to the destination. -/
theorem sortFileRun_none (c : Int) (input : List α) :
    sortFileRun c input none = RunResult.ok ⟨[], some (sortFile c input)⟩ := by
  unfold sortFileRun mergeChunksRun
  simp only [mergeChunksRun_contents, mergeLoopF_none]
  rw [removeTemps_self]
  rfl

theorem sortFile_length (c : Int) (input : List α) :
    (sortFile c input).length = input.length :=
  (sortFile_perm c input).length_eq

/-- A run whose `(j+1)`-th output write fails (with `j` less than the record
count) raises out of the merge loop: the temp files all remain and the
destination holds exactly the first `j` sorted records. -/
theorem sortFileRun_some (c : Int) (input : List α) (j : Nat)
    (hj : j < input.length) :
    sortFileRun c input (some j) =
      RunResult.err ⟨createSortedChunks c input, some ((sortFile c input).take j)⟩ := by
  unfold sortFileRun mergeChunksRun
  simp only [mergeChunksRun_contents, mergeLoopF_some]
  have hlen : j < (mergeLoop (((createSortedChunks c input).map Prod.snd).map List.tail)
      (initHeap ((createSortedChunks c input).map Prod.snd))).length := by
    show j < (sortFile c input).length
    rw [sortFile_length]
    exact hj
  rw [if_pos hlen]
  rfl

/-- With a non-positive `chunk_size`, `len(chunk) >= self.chunk_size` holds as
soon as one record is buffered, so every record is flushed as its own
one-record chunk: ids `n, n+1, …` with singleton contents. -/
def singletonChunks (n : Nat) : List α → List (Nat × List α)
  | [] => []
  | r :: rs => (n, [r]) :: singletonChunks (n + 1) rs

theorem chunksLoop_nonpos (c : Int) (hc : c ≤ 0) :
    ∀ (input : List α) (n : Nat), chunksLoop c input [] n = singletonChunks n input := by
  intro input
  induction input with
  | nil => intro n; rfl
  | cons r rs ih =>
    intro n
    rw [chunksLoop, singletonChunks]
    rw [if_pos (by simp; omega)]
    rw [ih (n + 1)]
    rfl

/-- Records are the input file's lines with the trailing newline stripped:
Python `str` values, which Python compares lexicographically by code point.
We model them as their lists of characters; the `List Char` linear order is
exactly that code-point-lexicographic comparison. -/
abbrev Record : Type := List Char

end ExternalMergeSort

namespace ExternalMergeSort

/-- C1: for every input file and every positive `chunk_size`, the record
sequence `sort_file` writes to the output file is non-decreasing under
lexicographic string comparison. -/
theorem claim1_output_sorted (chunkSize : Int) (hpos : 0 < chunkSize)
    (input : List Record) : List.Sorted (· ≤ ·) (sortFile chunkSize input) :=
  sortFile_sorted chunkSize input

theorem claim1_witness :
    (0 : Int) < 2 ∧ List.Sorted (· ≤ ·) (sortFile 2 ([['b'], ['a'], ['c']] : List Record)) :=
  ⟨by decide, claim1_output_sorted 2 (by decide) [['b'], ['a'], ['c']]⟩

/-- C2: for every input file and every positive `chunk_size`, the multiset of
output records equals the multiset of input records (every record value has
the same count, duplicates included), and in particular the output length
equals the input length. -/
theorem claim2_multiset_preserved (chunkSize : Int) (hpos : 0 < chunkSize)
    (input : List Record) :
    (∀ r : Record, (sortFile chunkSize input).count r = input.count r) ∧
    (sortFile chunkSize input).length = input.length :=
  ⟨fun r => (sortFile_perm chunkSize input).countP_eq _, sortFile_length chunkSize input⟩

theorem claim2_witness :
    (0 : Int) < 1 ∧
    (sortFile 1 ([['b'], ['a'], ['b']] : List Record)).count ['b'] =
      ([['b'], ['a'], ['b']] : List Record).count ['b'] ∧
    (sortFile 1 ([['b'], ['a'], ['b']] : List Record)).length =
      ([['b'], ['a'], ['b']] : List Record).length :=
  ⟨by decide,
    (claim2_multiset_preserved 1 (by decide) [['b'], ['a'], ['b']]).1 ['b'],
    (claim2_multiset_preserved 1 (by decide) [['b'], ['a'], ['b']]).2⟩

/-- C3 (counterexample): a run whose first output write fails mid-merge exits
with both temp chunk files still in storage: `_merge_chunks` removes temp
files only in straight-line code after the merge loop, which an exception
skips. -/
theorem claim3_counterexample :
    sortFileRun 1 ([['b'], ['a']] : List Record) (some 0) =
      RunResult.err ⟨[(0, [['b']]), (1, [['a']])], some []⟩ ∧
    ([(0, [['b']]), (1, [['a']])] : List (Nat × List Record)) ≠ [] :=
  ⟨by decide, by decide⟩

/-- C3 (amended): when `sort_file` completes normally, no temporary chunk
file remains in storage (and the destination holds the full sorted output);
the source guarantees this only for normal completion, not for error exits. -/
theorem claim3_cleanup_on_success (chunkSize : Int) (input : List Record) :
    sortFileRun chunkSize input none = RunResult.ok ⟨[], some (sortFile chunkSize input)⟩ :=
  sortFileRun_none chunkSize input

/-- C4 (counterexample): a run that fails on its second output write leaves
the destination holding one record — neither absent nor the complete sorted
result — because `_merge_chunks` opens the destination with mode `"w"` and
writes records to it as they are merged. -/
theorem claim4_counterexample :
    sortFileRun 1 ([['b'], ['a']] : List Record) (some 1) =
      RunResult.err ⟨[(0, [['b']]), (1, [['a']])], some [['a']]⟩ ∧
    (some [['a']] : Option (List Record)) ≠ none ∧
    ([['a']] : List Record) ≠ sortFile 1 ([['b'], ['a']] : List Record) :=
  ⟨by decide, by decide, by decide⟩

/-- C4 (amended): on a failure after `j` successful output writes (with `j`
below the record count), the named destination is not left absent or
untouched: it is truncated at merge start and holds exactly the first `j`
records of the sorted sequence, while all temp chunk files remain. -/
theorem claim4_incomplete_output (chunkSize : Int) (input : List Record) (j : Nat)
    (hj : j < input.length) :
    sortFileRun chunkSize input (some j) =
      RunResult.err ⟨createSortedChunks chunkSize input,
        some ((sortFile chunkSize input).take j)⟩ :=
  sortFileRun_some chunkSize input j hj

theorem claim4_witness :
    1 < ([['b'], ['a']] : List Record).length ∧
    sortFileRun 1 ([['b'], ['a']] : List Record) (some 1) =
      RunResult.err ⟨createSortedChunks 1 [['b'], ['a']],
        some ((sortFile 1 [['b'], ['a']]).take 1)⟩ :=
  ⟨by decide, claim4_incomplete_output 1 [['b'], ['a']] 1 (by decide)⟩

/-- C5 (counterexample): with `chunk_size = 0` (non-positive) the sorter does
not raise any configuration error: `__init__` stores `chunk_size` unchecked,
the run completes successfully, and I/O does occur — the input is read and a
temp chunk is created. -/
theorem claim5_counterexample :
    sortFileRun 0 ([['a']] : List Record) none = RunResult.ok ⟨[], some [['a']]⟩ ∧
    createSortedChunks 0 ([['a']] : List Record) = [(0, [['a']])] ∧
    ([(0, [['a']])] : List (Nat × List Record)) ≠ [] :=
  ⟨by decide, by decide, by decide⟩

/-- C5 (amended): the sorter performs no validation of `chunk_size`.  A
non-positive `chunk_size` is accepted and the run completes normally; the
buffer-full test `len(chunk) >= self.chunk_size` then holds after every
record, so each record is flushed as its own one-record temp chunk. -/
theorem claim5_no_validation (chunkSize : Int) (hnp : chunkSize ≤ 0)
    (input : List Record) :
    createSortedChunks chunkSize input = singletonChunks 0 input ∧
    sortFileRun chunkSize input none =
      RunResult.ok ⟨[], some (sortFile chunkSize input)⟩ :=
  ⟨chunksLoop_nonpos chunkSize hnp input 0, sortFileRun_none chunkSize input⟩

theorem claim5_witness :
    (0 : Int) ≤ 0 ∧
    (createSortedChunks 0 ([['b'], ['a']] : List Record) = singletonChunks 0 [['b'], ['a']] ∧
     sortFileRun 0 ([['b'], ['a']] : List Record) none =
       RunResult.ok ⟨[], some (sortFile 0 [['b'], ['a']])⟩) :=
  ⟨by decide, claim5_no_validation 0 (by decide) [['b'], ['a']]⟩

/-- C6: for every input and positive `chunk_size`, every chunk except
possibly the last has exactly `chunk_size` records, every chunk's record
sequence is sorted ascending, and the chunk ids are strictly increasing
(hence unique) in creation order. -/
theorem claim6_chunk_invariants (chunkSize : Int) (hpos : 0 < chunkSize)
    (input : List Record) :
    (∀ t ∈ (createSortedChunks chunkSize input).dropLast,
      (t.2.length : Int) = chunkSize) ∧
    (∀ t ∈ createSortedChunks chunkSize input, List.Sorted (· ≤ ·) t.2) ∧
    List.Pairwise (· < ·) ((createSortedChunks chunkSize input).map Prod.fst) := by
  refine ⟨chunksLoop_full_lengths chunkSize hpos input [] 0 (by simpa using hpos),
    createSortedChunks_all_sorted chunkSize input, ?_⟩
  rw [createSortedChunks_ids]
  exact List.pairwise_lt_range' _ _

theorem claim6_witness :
    (0 : Int) < 2 ∧
    List.Pairwise (· < ·)
      ((createSortedChunks 2 ([['b'], ['a'], ['c']] : List Record)).map Prod.fst) :=
  ⟨by decide, (claim6_chunk_invariants 2 (by decide) [['b'], ['a'], ['c']]).2.2⟩

/-- C7: heap entries `(record, chunk id)` are ordered by record value with
ties broken by chunk id ascending (`entryLe` is Python's tuple comparison),
and the merge always emits the value of the popped minimal entry next — so
when two chunks' current records are equal, the entry of the higher-numbered
chunk is not the one emitted. -/
theorem claim7_heap_tiebreak (cs : List (List Record)) (h : List (Record × Nat))
    (v : Record) (i j : Nat) (e : Record × Nat) (h' : List (Record × Nat))
    (hvi : (v, i) ∈ h) (hvj : (v, j) ∈ h) (hij : i < j)
    (hpop : popMin h = some (e, h')) :
    entryLe e (v, i) ∧ e ≠ (v, j) ∧ (mergeLoop cs h).head? = some e.1 := by
  have hle_i := popMin_le hpop (v, i) hvi
  have hne : e ≠ (v, j) := by
    intro heq
    subst heq
    rcases hle_i with hlt | ⟨_, hle2⟩
    · exact absurd hlt (lt_irrefl v)
    · simp at hle2
      omega
  refine ⟨hle_i, hne, ?_⟩
  rcases hc : cs.getD e.2 [] with _ | ⟨r, rest⟩
  · rw [mergeLoop_step_exhausted hpop hc]; rfl
  · rw [mergeLoop_step_push hpop hc]; rfl

theorem claim7_witness :
    ((['a'] : Record), 0) ∈ ([(['a'], 0), (['a'], 1)] : List (Record × Nat)) ∧
    entryLe ((['a'] : Record), 0) (['a'], 0) ∧
    ((['a'] : Record), 0) ≠ (['a'], 1) ∧
    (mergeLoop ([[], []] : List (List Record)) [(['a'], 0), (['a'], 1)]).head? =
      some ['a'] :=
  ⟨by decide,
    claim7_heap_tiebreak [[], []] [(['a'], 0), (['a'], 1)] ['a'] 0 1 (['a'], 0)
      [(['a'], 1)] (by decide) (by decide) (by decide) (by decide)⟩

/-- C8: the empty input is not an error: `sort_file` creates zero temp
chunks, completes successfully and produces an empty output. -/
theorem claim8_empty_input (chunkSize : Int) :
    createSortedChunks chunkSize ([] : List Record) = [] ∧
    sortFileRun chunkSize ([] : List Record) none = RunResult.ok ⟨[], some []⟩ := by
  refine ⟨rfl, ?_⟩
  have h := sortFileRun_none chunkSize ([] : List Record)
  rwa [(sortFile_perm chunkSize ([] : List Record)).eq_nil] at h

/-- C9: sorting an already-sorted input yields the identical record
sequence. -/
theorem claim9_idempotent (chunkSize : Int) (input : List Record)
    (hsorted : List.Sorted (· ≤ ·) input) : sortFile chunkSize input = input :=
  List.eq_of_perm_of_sorted (sortFile_perm chunkSize input)
    (sortFile_sorted chunkSize input) hsorted

theorem claim9_witness :
    List.Sorted (· ≤ ·) ([['a'], ['b']] : List Record) ∧
    sortFile 1 ([['a'], ['b']] : List Record) = [['a'], ['b']] :=
  ⟨by decide, claim9_idempotent 1 [['a'], ['b']] (by decide)⟩

/-- C10: `sort_file` is deterministic — its output is a pure function of the
input record sequence (and, a fortiori, of input plus `chunk_size`): any two
runs, even with different chunk sizes, produce the identical output, namely
the canonical sorted permutation of the input. -/
theorem claim10_deterministic (c₁ c₂ : Int) (input : List Record) :
    sortFile c₁ input = sortFile c₂ input ∧
    sortFile c₁ input = List.insertionSort (· ≤ ·) input :=
  ⟨(sortFile_eq_insertionSort c₁ input).trans (sortFile_eq_insertionSort c₂ input).symm,
    sortFile_eq_insertionSort c₁ input⟩

end ExternalMergeSort
